import Mathlib

/-!
Shallow embedding of the bitmessage proof-of-work engine
(`src/pow.cc`, `src/pow.h`, `src/worker.cc`).

The C code searches for a nonce such that the first 8 bytes of
SHA512(SHA512(be64(nonce) ++ digest)), read as a big-endian 64-bit
integer, are at most a target.  The search is spread over `pool_size`
pthread workers, worker `k` scanning the arithmetic progression
`k, k + pool_size, k + 2*pool_size, ...` (as a `uint64_t`, so modulo
2^64), all reporting through a mutex-guarded write-once result cell.

SHA512 itself is an external library call (OpenSSL); the embedding
takes the hash as an explicit function parameter `h` on byte lists.
Machine 64-bit values are `Nat` reduced modulo `U64 = 2^64` where the
C code can overflow.  Thread interleaving is modelled by an explicit
schedule: a list of events, each event being one full loop iteration
of one worker (the per-iteration shared accesses are the unsynchronized
read of the result cell and the mutex-guarded `set_result`, whose
compare-before-write semantics is kept inside the step), or the launch
loop's reaction to a failed `pthread_create`.
-/

namespace BitmessagePow

/-- `HASH_SIZE` from `pow.h`: SHA512 digest length in bytes. -/
def HASH_SIZE : Nat := 64

/-- `MAX_POOL_SIZE` from `pow.h`. -/
def MAX_POOL_SIZE : Nat := 1024

/-- One past the largest `uint64_t` value. -/
def U64 : Nat := 18446744073709551616

/-- `INT64_MAX`, the value `pow` substitutes for a zero `max_nonce`. -/
def INT64_MAX : Nat := 9223372036854775807

/-- `MAX_SAFE_INTEGER` from `worker.cc` (2^53 - 1), the `max_nonce`
the node binding always passes to `pow`. -/
def MAX_SAFE_INTEGER : Nat := 9007199254740991

/-- `ntohl` as it behaves on the little-endian hosts the code targets
(per the comment at `pow.cc:85`): the 32-bit byte swap. -/
def ntohl (x : Nat) : Nat :=
  x % 256 * 16777216 + x / 256 % 256 * 65536 +
    x / 65536 % 256 * 256 + x / 16777216 % 256

/-- `ntohll` from `pow.cc:40`: swap the two 32-bit halves of a
`uint64_t` with `ntohl` applied to each, i.e. the 64-bit byte swap
on a little-endian host. -/
def ntohll (x : Nat) : Nat :=
  ntohl (x % 4294967296) * 4294967296 + ntohl (x / 4294967296 % 4294967296)

/-- The byte sequence laid down in memory by a little-endian store of
a `uint64_t` (byte 0 is the least significant). -/
def leBytes8 (x : Nat) : List Nat :=
  [x % 256, x / 256 % 256, x / 65536 % 256, x / 16777216 % 256,
   x / 4294967296 % 256, x / 1099511627776 % 256,
   x / 281474976710656 % 256, x / 72057594037927936 % 256]

/-- The big-endian byte serialization of a 64-bit value (byte 0 is the
most significant). -/
def beBytes8 (x : Nat) : List Nat :=
  [x / 72057594037927936 % 256, x / 281474976710656 % 256,
   x / 1099511627776 % 256, x / 4294967296 % 256,
   x / 16777216 % 256, x / 65536 % 256, x / 256 % 256, x % 256]

/-- The `uint64_t` a little-endian load reads back from a byte list
(first byte least significant), as in `*be_nonce` / `*be_trial`. -/
def fromLE8 (l : List Nat) : Nat :=
  l.foldr (fun b acc => b + 256 * acc) 0

/-- A byte list read as a big-endian integer (first byte most
significant). -/
def fromBE8 (l : List Nat) : Nat :=
  l.foldl (fun acc b => 256 * acc + b) 0

/-- The candidate buffer `message` of `pow_thread`: the little-endian
store of `ntohll(i)` (`pow.cc:87`) followed by the verbatim copy of the
64-byte input digest (`pow.cc:74`).  `i` is a `uint64_t`, hence the
reduction modulo `U64`. -/
def encode (i : Nat) (d : List Nat) : List Nat :=
  leBytes8 (ntohll (i % U64)) ++ d

/-- The trial value of `pow_thread` for counter `i`:
`ntohll(*be_trial)` after the double SHA512 of the candidate buffer,
i.e. the little-endian load of the first 8 digest bytes, byte-swapped
(`pow.cc:88-94`).  `h` stands for the external SHA512. -/
def derivedValue (h : List Nat → List Nat) (i : Nat) (d : List Nat) : Nat :=
  ntohll (fromLE8 ((h (h (encode i d))).take 8))

/-- A hash function that behaves like SHA512 at the type level: it
returns 64 bytes, each below 256. -/
def HashValid (h : List Nat → List Nat) : Prop :=
  ∀ msg, (h msg).length = HASH_SIZE ∧ ∀ b ∈ h msg, b < 256

/-- The `PowResult` enum of `pow.cc`. -/
inductive PowResult where
  | ok
  | overflow
  | error
  | badInput
  | notReady
  deriving DecidableEq

/-- The integer codes of the `PowResult` enum. -/
def resultCode : PowResult → Int
  | .ok => 0
  | .overflow => -1
  | .error => -2
  | .badInput => -3
  | .notReady => -4

/-- The mutable fields of `PowArgs` guarded by the mutex: the result
cell and the winning nonce. -/
structure Shared where
  result : PowResult
  nonce : Nat
  deriving DecidableEq

/-- `set_result` from `pow.cc:49`: under the mutex, store `res` and
`nonce` only when the cell still holds `RESULT_NOT_READY`. -/
def set_result (s : Shared) (res : PowResult) (nonce : Nat) : Shared :=
  if s.result = .notReady then { result := res, nonce := nonce } else s

/-- The worker-local state of one `pow_thread`: its `uint64_t` counter
`i` and whether it has returned. -/
structure WorkerSt where
  counter : Nat
  halted : Bool
  deriving DecidableEq

/-- A global configuration: the shared cell plus every worker's local
state (worker `k` at index `k`). -/
structure Config where
  shared : Shared
  workers : List WorkerSt
  deriving DecidableEq

/-- One scheduling event: a full loop iteration of worker `w`, or the
launch loop reacting to a failed `pthread_create` (`pow.cc:134-136`,
which calls `set_result(&pow_args, RESULT_ERROR, 0)`). -/
inductive Event where
  | work (w : Nat)
  | spawnFail
  deriving DecidableEq

/-- One loop iteration of `pow_thread` (`pow.cc:78-99`) by worker `w`,
or the engine's failed-spawn event: check the shared cell, then the
overflow guard `i > max_nonce`, then hash and compare with the target,
else advance the counter by `pool_size` in `uint64_t` arithmetic.
A worker that returns is marked halted; events naming a halted or
nonexistent worker do nothing. -/
def step (h : List Nat → List Nat) (N target maxNonce : Nat) (d : List Nat)
    (cfg : Config) (e : Event) : Config :=
  match e with
  | .spawnFail => { cfg with shared := set_result cfg.shared .error 0 }
  | .work w =>
    match cfg.workers[w]? with
    | none => cfg
    | some ws =>
      if ws.halted then cfg
      else if cfg.shared.result ≠ .notReady then
        { cfg with workers := cfg.workers.set w { ws with halted := true } }
      else if ws.counter > maxNonce then
        { shared := set_result cfg.shared .overflow 0,
          workers := cfg.workers.set w { ws with halted := true } }
      else if derivedValue h ws.counter d ≤ target then
        { shared := set_result cfg.shared .ok ws.counter,
          workers := cfg.workers.set w { ws with halted := true } }
      else
        { cfg with
          workers := cfg.workers.set w { ws with counter := (ws.counter + N) % U64 } }

/-- Run a schedule of events from a configuration. -/
def run (h : List Nat → List Nat) (N target maxNonce : Nat) (d : List Nat)
    (sched : List Event) (cfg : Config) : Config :=
  sched.foldl (step h N target maxNonce d) cfg

/-- The configuration right after `pow` has set up `PowArgs`
(`pow.cc:115-123`) and the spawn loop has handed index `k` to worker
`k` (`pow.cc:130-133`). -/
def initConfig (N : Nat) : Config :=
  { shared := { result := .notReady, nonce := 0 },
    workers := (List.range N).map fun k => { counter := k, halted := false } }

/-- All workers have returned, so the join loop of `pow` would have
completed. -/
def Completed (cfg : Config) : Bool :=
  cfg.workers.all fun ws => ws.halted

/-- The effective search bound of `pow.cc:119`:
`max_nonce ? max_nonce : INT64_MAX`. -/
def effectiveMaxNonce (maxNonce : Nat) : Nat :=
  if maxNonce = 0 then INT64_MAX else maxNonce

/-- `pow` from `pow.cc:103`: validate the pool size, run the workers
under some schedule, then return the result code, writing through the
caller's nonce pointer (initially `nonce0`) only on `RESULT_OK`
(`pow.cc:146-148`). -/
def pow (h : List Nat → List Nat) (N target : Nat) (d : List Nat)
    (maxNonce : Nat) (sched : List Event) (nonce0 : Nat) : Int × Nat :=
  if N < 1 ∨ N > MAX_POOL_SIZE then (resultCode .badInput, nonce0)
  else
    let final := run h N target (effectiveMaxNonce maxNonce) d sched (initConfig N)
    (resultCode final.shared.result,
     if final.shared.result = .ok then final.shared.nonce else nonce0)

/-- The exposed search entry point: the bad-input screen of the node
binding `PowAsync` (`worker.cc:83`), which also rejects a digest whose
length is not `HASH_SIZE`, composed with `pow`. -/
def search (h : List Nat → List Nat) (N target : Nat) (d : List Nat)
    (maxNonce : Nat) (sched : List Event) (nonce0 : Nat) : Int × Nat :=
  if N < 1 ∨ N > MAX_POOL_SIZE ∨ d.length ≠ HASH_SIZE then
    (resultCode .badInput, nonce0)
  else pow h N target d maxNonce sched nonce0

/-- The loop of a single `pow_thread` running with no interference
(the unsynchronized read of the result cell always sees
`RESULT_NOT_READY`), with explicit fuel counting loop iterations;
`none` means the loop is still running after `fuel` iterations. -/
def workerRun (h : List Nat → List Nat) (N target maxNonce : Nat)
    (d : List Nat) : Nat → Nat → Option (PowResult × Nat)
  | 0, _ => none
  | fuel + 1, i =>
    if i > maxNonce then some (.overflow, 0)
    else if derivedValue h i d ≤ target then some (.ok, i)
    else workerRun h N target maxNonce d fuel ((i + N) % U64)

/-- The counter sequence of worker `k` under pool size `N`: starts at
the thread number `k` (`pow.cc:67`) and advances by `i += pool_size`
(`pow.cc:98`) in `uint64_t` arithmetic. -/
def candSeq (k N : Nat) : Nat → Nat
  | 0 => k % U64
  | j + 1 => (candSeq k N j + N) % U64

/-- A hash function returning 64 zero bytes; used to instantiate the
external SHA512 parameter on concrete runs. -/
def hZero : List Nat → List Nat := fun _ => List.replicate 64 0

/-- A hash function returning 64 `0xFF` bytes, so that every trial
value is `2^64 - 1`; used to instantiate runs where every candidate
misses the target. -/
def hFF : List Nat → List Nat := fun _ => List.replicate 64 255

/-- The all-zero 64-byte digest. -/
def d0 : List Nat := List.replicate 64 0

/-- Every worker counter fits in a `uint64_t`. -/
def CountersLt (cfg : Config) : Prop :=
  ∀ ws ∈ cfg.workers, ws.counter < U64

/-- When the cell holds `RESULT_OK`, the stored nonce is within the
bound and its trial value meets the target. -/
def OkSound (h : List Nat → List Nat) (t m : Nat) (d : List Nat)
    (cfg : Config) : Prop :=
  cfg.shared.result = .ok →
    cfg.shared.nonce ≤ m ∧ cfg.shared.nonce < U64 ∧
      derivedValue h cfg.shared.nonce d ≤ t

/-- Single-worker invariant: with pool size 1 the lone worker's
counter has scanned an initial segment of the naturals, every scanned
candidate has missed the target while the cell was open, and an
overflow verdict certifies that every candidate up to the bound
missed. -/
def C5Inv (h : List Nat → List Nat) (t m : Nat) (d : List Nat)
    (cfg : Config) : Prop :=
  ∃ ws : WorkerSt, cfg.workers = [ws] ∧ ws.counter ≤ m + 1 ∧
    (cfg.shared.result = .notReady →
      ∀ n < ws.counter, t < derivedValue h n d) ∧
    (cfg.shared.result = .overflow → ∀ n ≤ m, t < derivedValue h n d)

/-- Invariant of the maximal-target scenario (pool size 4, target
`2^64 - 1`, bound 1000): no counter ever moves, the cell can only go
from open to a success with one of the four first candidates, and no
worker halts while the cell is open. -/
def C9Inv (cfg : Config) : Prop :=
  cfg.workers.length = 4 ∧
    (∀ ws ∈ cfg.workers, ws.counter < 4) ∧
    (cfg.shared.result = .notReady → ∀ ws ∈ cfg.workers, ws.halted = false) ∧
    (cfg.shared.result ≠ .notReady →
      cfg.shared.result = .ok ∧ cfg.shared.nonce < 4)


/-! ### Byte-order bridge lemmas -/

/-- `ntohll` always produces a value that fits in a `uint64_t`. -/
theorem ntohll_lt_U64 (x : Nat) : ntohll x < U64 := by
  unfold ntohll ntohl U64
  omega

/-- Every trial value fits in a `uint64_t`. -/
theorem derivedValue_lt_U64 (h : List Nat → List Nat) (i : Nat) (d : List Nat) :
    derivedValue h i d < U64 :=
  ntohll_lt_U64 _

/-- `ntohl` on a 32-bit value given by its four bytes reverses the
bytes. -/
theorem ntohl_bytes (a b c d : Nat) (ha : a < 256) (hb : b < 256)
    (hc : c < 256) (hd : d < 256) :
    ntohl (a + 256 * b + 65536 * c + 16777216 * d) =
      d + 256 * c + 65536 * b + 16777216 * a := by
  unfold ntohl
  omega

/-- `ntohll` on a 64-bit value given by its eight bytes reverses the
bytes. -/
theorem ntohll_bytes (b0 b1 b2 b3 b4 b5 b6 b7 : Nat)
    (h0 : b0 < 256) (h1 : b1 < 256) (h2 : b2 < 256) (h3 : b3 < 256)
    (h4 : b4 < 256) (h5 : b5 < 256) (h6 : b6 < 256) (h7 : b7 < 256) :
    ntohll (b0 + 256 * b1 + 65536 * b2 + 16777216 * b3 +
        4294967296 * b4 + 1099511627776 * b5 + 281474976710656 * b6 +
        72057594037927936 * b7) =
      b7 + 256 * b6 + 65536 * b5 + 16777216 * b4 +
        4294967296 * b3 + 1099511627776 * b2 + 281474976710656 * b1 +
        72057594037927936 * b0 := by
  unfold ntohll
  have hlo : (b0 + 256 * b1 + 65536 * b2 + 16777216 * b3 +
      4294967296 * b4 + 1099511627776 * b5 + 281474976710656 * b6 +
      72057594037927936 * b7) % 4294967296 =
      b0 + 256 * b1 + 65536 * b2 + 16777216 * b3 := by omega
  have hhi : (b0 + 256 * b1 + 65536 * b2 + 16777216 * b3 +
      4294967296 * b4 + 1099511627776 * b5 + 281474976710656 * b6 +
      72057594037927936 * b7) / 4294967296 % 4294967296 =
      b4 + 256 * b5 + 65536 * b6 + 16777216 * b7 := by omega
  rw [hlo, hhi, ntohl_bytes b0 b1 b2 b3 h0 h1 h2 h3,
    ntohl_bytes b4 b5 b6 b7 h4 h5 h6 h7]
  ring

/-- `leBytes8` on a value given by its eight bytes lists the bytes in
order. -/
theorem leBytes8_bytes (b0 b1 b2 b3 b4 b5 b6 b7 : Nat)
    (h0 : b0 < 256) (h1 : b1 < 256) (h2 : b2 < 256) (h3 : b3 < 256)
    (h4 : b4 < 256) (h5 : b5 < 256) (h6 : b6 < 256) (h7 : b7 < 256) :
    leBytes8 (b0 + 256 * b1 + 65536 * b2 + 16777216 * b3 +
        4294967296 * b4 + 1099511627776 * b5 + 281474976710656 * b6 +
        72057594037927936 * b7) = [b0, b1, b2, b3, b4, b5, b6, b7] := by
  unfold leBytes8
  simp only [List.cons.injEq, and_true]
  refine ⟨?_, ?_, ?_, ?_, ?_, ?_, ?_, ?_⟩ <;> omega

/-- `beBytes8` on a value given by its eight bytes lists the bytes in
reverse order. -/
theorem beBytes8_bytes (b0 b1 b2 b3 b4 b5 b6 b7 : Nat)
    (h0 : b0 < 256) (h1 : b1 < 256) (h2 : b2 < 256) (h3 : b3 < 256)
    (h4 : b4 < 256) (h5 : b5 < 256) (h6 : b6 < 256) (h7 : b7 < 256) :
    beBytes8 (b0 + 256 * b1 + 65536 * b2 + 16777216 * b3 +
        4294967296 * b4 + 1099511627776 * b5 + 281474976710656 * b6 +
        72057594037927936 * b7) = [b7, b6, b5, b4, b3, b2, b1, b0] := by
  unfold beBytes8
  simp only [List.cons.injEq, and_true]
  refine ⟨?_, ?_, ?_, ?_, ?_, ?_, ?_, ?_⟩ <;> omega

/-- Every value below `2^64` is the weighted sum of its eight bytes. -/
theorem byte_decomposition (x : Nat) (hx : x < U64) :
    x = x % 256 + 256 * (x / 256 % 256) + 65536 * (x / 65536 % 256) +
      16777216 * (x / 16777216 % 256) + 4294967296 * (x / 4294967296 % 256) +
      1099511627776 * (x / 1099511627776 % 256) +
      281474976710656 * (x / 281474976710656 % 256) +
      72057594037927936 * (x / 72057594037927936 % 256) := by
  unfold U64 at hx
  omega

/-- Storing the byte-swapped `ntohll x` little-endian lays down exactly
the big-endian serialization of `x`: the net effect of `pow.cc:87` on a
little-endian host. -/
theorem leBytes8_ntohll (x : Nat) (hx : x < U64) :
    leBytes8 (ntohll x) = beBytes8 x := by
  have hrepr := byte_decomposition x hx
  set b0 := x % 256 with hb0
  set b1 := x / 256 % 256 with hb1
  set b2 := x / 65536 % 256 with hb2
  set b3 := x / 16777216 % 256 with hb3
  set b4 := x / 4294967296 % 256 with hb4
  set b5 := x / 1099511627776 % 256 with hb5
  set b6 := x / 281474976710656 % 256 with hb6
  set b7 := x / 72057594037927936 % 256 with hb7
  have h0 : b0 < 256 := Nat.mod_lt _ (by norm_num)
  have h1 : b1 < 256 := Nat.mod_lt _ (by norm_num)
  have h2 : b2 < 256 := Nat.mod_lt _ (by norm_num)
  have h3 : b3 < 256 := Nat.mod_lt _ (by norm_num)
  have h4 : b4 < 256 := Nat.mod_lt _ (by norm_num)
  have h5 : b5 < 256 := Nat.mod_lt _ (by norm_num)
  have h6 : b6 < 256 := Nat.mod_lt _ (by norm_num)
  have h7 : b7 < 256 := Nat.mod_lt _ (by norm_num)
  rw [hrepr, ntohll_bytes b0 b1 b2 b3 b4 b5 b6 b7 h0 h1 h2 h3 h4 h5 h6 h7,
    beBytes8_bytes b0 b1 b2 b3 b4 b5 b6 b7 h0 h1 h2 h3 h4 h5 h6 h7]
  have hsum : b7 + 256 * b6 + 65536 * b5 + 16777216 * b4 +
      4294967296 * b3 + 1099511627776 * b2 + 281474976710656 * b1 +
      72057594037927936 * b0 =
      b7 + 256 * b6 + 65536 * b5 + 16777216 * b4 +
      4294967296 * b3 + 1099511627776 * b2 + 281474976710656 * b1 +
      72057594037927936 * b0 := rfl
  exact leBytes8_bytes b7 b6 b5 b4 b3 b2 b1 b0 h7 h6 h5 h4 h3 h2 h1 h0

/-- The candidate buffer is the big-endian counter followed by the
digest. -/
theorem encode_eq_be (x : Nat) (d : List Nat) (hx : x < U64) :
    encode x d = beBytes8 x ++ d := by
  unfold encode
  rw [Nat.mod_eq_of_lt hx, leBytes8_ntohll x hx]

/-- Loading 8 bytes little-endian and byte-swapping the result reads
the bytes big-endian: the net effect of `ntohll(*be_trial)` at
`pow.cc:94`. -/
theorem ntohll_fromLE8 (l : List Nat) (hl : l.length = 8)
    (hb : ∀ b ∈ l, b < 256) : ntohll (fromLE8 l) = fromBE8 l := by
  rcases l with _ | ⟨b0, _ | ⟨b1, _ | ⟨b2, _ | ⟨b3, _ | ⟨b4, _ | ⟨b5, _ | ⟨b6, _ | ⟨b7, _ | ⟨b8, l⟩⟩⟩⟩⟩⟩⟩⟩⟩ <;>
    simp_all [fromLE8, fromBE8, List.mem_cons]
  obtain ⟨h0, h1, h2, h3, h4, h5, h6, h7⟩ := hb
  have hle : b0 + 256 * (b1 + 256 * (b2 + 256 * (b3 + 256 * (b4 + 256 *
      (b5 + 256 * (b6 + 256 * b7)))))) =
      b0 + 256 * b1 + 65536 * b2 + 16777216 * b3 + 4294967296 * b4 +
        1099511627776 * b5 + 281474976710656 * b6 +
        72057594037927936 * b7 := by ring
  rw [hle, ntohll_bytes b0 b1 b2 b3 b4 b5 b6 b7 h0 h1 h2 h3 h4 h5 h6 h7]
  ring

/-- Under a byte-valued hash, the trial value of the code coincides
with the big-endian reading of the first 8 bytes of the double hash of
the big-endian candidate, the form the specification describes. -/
theorem derivedValue_eq_be (h : List Nat → List Nat) (i : Nat) (d : List Nat)
    (hh : HashValid h) (hi : i < U64) :
    derivedValue h i d = fromBE8 ((h (h (beBytes8 i ++ d))).take 8) := by
  unfold derivedValue
  rw [encode_eq_be i d hi]
  refine ntohll_fromLE8 _ ?_ ?_
  · rw [List.length_take, (hh _).1]
    decide
  · intro b hbmem
    exact (hh _).2 b (List.take_subset 8 _ hbmem)

/-! ### Result coordinator lemmas -/

/-- A `set_result` call on a cell still holding `RESULT_NOT_READY`
stores its arguments. -/
theorem set_result_of_notReady {s : Shared} (res : PowResult) (n : Nat)
    (hs : s.result = .notReady) :
    set_result s res n = { result := res, nonce := n } := by
  unfold set_result
  rw [if_pos hs]

/-- A `set_result` call on a cell already holding a terminal value is
a no-op. -/
theorem set_result_of_terminal {s : Shared} (res : PowResult) (n : Nat)
    (hs : s.result ≠ .notReady) : set_result s res n = s := by
  unfold set_result
  rw [if_neg hs]

/-- If the cell holds `RESULT_OK` after a `set_result` call that did
not pass `RESULT_OK`, it already held it before, untouched. -/
theorem set_result_ok_of_ne {s : Shared} {res : PowResult} {n : Nat}
    (hres : res ≠ .ok) (hok : (set_result s res n).result = .ok) :
    set_result s res n = s := by
  unfold set_result at *
  by_cases hs : s.result = .notReady
  · rw [if_pos hs] at hok
    exact absurd hok hres
  · rw [if_neg hs]

/-- Any sequence of `set_result` calls on a cell already holding a
terminal value leaves it untouched. -/
theorem foldl_set_result_terminal (calls : List (PowResult × Nat)) :
    ∀ s : Shared, s.result ≠ .notReady →
      calls.foldl (fun s c => set_result s c.1 c.2) s = s := by
  induction calls with
  | nil => intro s _; rfl
  | cons c rest ih =>
    intro s hs
    rw [List.foldl_cons, set_result_of_terminal c.1 c.2 hs]
    exact ih s hs

/-- Generic invariant preservation for the interleaved worker
machine. -/
theorem run_invariant (h : List Nat → List Nat) (N t m : Nat) (d : List Nat)
    (P : Config → Prop)
    (hstep : ∀ cfg e, P cfg → P (step h N t m d cfg e)) :
    ∀ (sched : List Event) (cfg : Config), P cfg →
      P (run h N t m d sched cfg) := by
  intro sched
  induction sched with
  | nil => intro cfg hP; exact hP
  | cons e rest ih =>
    intro cfg hP
    exact ih (step h N t m d cfg e) (hstep cfg e hP)

/-- Generic invariant preservation when every event of the schedule
satisfies a side condition. -/
theorem run_invariant_of_events (h : List Nat → List Nat) (N t m : Nat)
    (d : List Nat) (P : Config → Prop) (E : Event → Prop)
    (hstep : ∀ cfg e, E e → P cfg → P (step h N t m d cfg e)) :
    ∀ (sched : List Event) (cfg : Config), (∀ e ∈ sched, E e) → P cfg →
      P (run h N t m d sched cfg) := by
  intro sched
  induction sched with
  | nil => intro cfg _ hP; exact hP
  | cons e rest ih =>
    intro cfg hE hP
    exact ih (step h N t m d cfg e) (fun e' he' => hE e' (List.mem_cons_of_mem e he'))
      (hstep cfg e (hE e (List.mem_cons_self e rest)) hP)

/-- C2: the Result Coordinator is write-once.  A `set_result` call
stores its arguments exactly when the cell still holds
`RESULT_NOT_READY` and leaves the cell untouched otherwise; hence for
any sequence of calls starting from the not-ready cell, the first call
(carrying one of the terminal results the code ever passes) determines
the final contents. -/
theorem set_result_write_once :
    (∀ (s : Shared) (res : PowResult) (n : Nat), s.result = .notReady →
      set_result s res n = { result := res, nonce := n }) ∧
    (∀ (s : Shared) (res : PowResult) (n : Nat), s.result ≠ .notReady →
      set_result s res n = s) ∧
    (∀ (res : PowResult) (n nonce0 : Nat) (rest : List (PowResult × Nat)),
      res ≠ .notReady →
      ((⟨res, n⟩ :: rest) : List (PowResult × Nat)).foldl
          (fun s c => set_result s c.1 c.2)
          { result := .notReady, nonce := nonce0 } =
        { result := res, nonce := n }) := by
  refine ⟨fun s res n hs => set_result_of_notReady res n hs,
    fun s res n hs => set_result_of_terminal res n hs,
    fun res n nonce0 rest hres => ?_⟩
  rw [List.foldl_cons, set_result_of_notReady res n rfl]
  exact foldl_set_result_terminal rest _ hres

/-- C2 witness: a concrete call sequence where the first write wins
and a later overflow write is discarded. -/
theorem set_result_write_once_witness :
    (([(PowResult.ok, 5), (PowResult.overflow, 9)]) :
        List (PowResult × Nat)).foldl (fun s c => set_result s c.1 c.2)
        { result := .notReady, nonce := 0 } =
      { result := .ok, nonce := 5 } :=
  set_result_write_once.2.2 .ok 5 0 [(.overflow, 9)] (by decide)

/-- The all-zero hash is byte-valued. -/
theorem hashValid_hZero : HashValid hZero := by
  intro msg
  constructor
  · simp [hZero, HASH_SIZE]
  · intro b hb
    have hb0 := List.eq_of_mem_replicate hb
    omega

/-- An element looked up by index is a member of the list. -/
theorem mem_of_lookup {α : Type} {l : List α} {i : Nat} {a : α}
    (hl : l[i]? = some a) : a ∈ l := by
  obtain ⟨hlt, rfl⟩ := List.getElem?_eq_some.mp hl
  exact List.getElem_mem hlt

/-- One step preserves the success-soundness invariant. -/
theorem c1_inv_step (h : List Nat → List Nat) (N t m : Nat) (d : List Nat) :
    ∀ cfg e, (CountersLt cfg ∧ OkSound h t m d cfg) →
      (CountersLt (step h N t m d cfg e) ∧
        OkSound h t m d (step h N t m d cfg e)) := by
  intro cfg e ⟨hc, hok⟩
  cases e with
  | spawnFail =>
    simp only [step]
    refine ⟨fun ws hws => hc ws hws, fun hres => ?_⟩
    have heq := set_result_ok_of_ne (by decide : PowResult.error ≠ .ok) hres
    rw [heq] at hres ⊢
    exact hok hres
  | work w =>
    cases hw : cfg.workers[w]? with
    | none => simpa only [step, hw] using ⟨hc, hok⟩
    | some ws =>
      simp only [step, hw]
      have hmem : ws ∈ cfg.workers := mem_of_lookup hw
      split_ifs with hhalt hterm hover hhit
      · exact ⟨hc, hok⟩
      · refine ⟨fun ws' hws' => ?_, hok⟩
        rcases List.mem_or_eq_of_mem_set hws' with hin | rfl
        · exact hc ws' hin
        · exact hc ws hmem
      · refine ⟨fun ws' hws' => ?_, fun hres => ?_⟩
        · rcases List.mem_or_eq_of_mem_set hws' with hin | rfl
          · exact hc ws' hin
          · exact hc ws hmem
        · have heq := set_result_ok_of_ne
            (by decide : PowResult.overflow ≠ .ok) hres
          rw [heq] at hres ⊢
          exact hok hres
      · refine ⟨fun ws' hws' => ?_, fun _ => ?_⟩
        · rcases List.mem_or_eq_of_mem_set hws' with hin | rfl
          · exact hc ws' hin
          · exact hc ws hmem
        · rw [set_result_of_notReady .ok ws.counter (not_not.mp hterm)]
          exact ⟨Nat.le_of_not_lt hover, hc ws hmem, hhit⟩
      · refine ⟨fun ws' hws' => ?_, hok⟩
        rcases List.mem_or_eq_of_mem_set hws' with hin | rfl
        · exact hc ws' hin
        · exact Nat.mod_lt _ (by unfold U64; omega)

/-- The invariant holds over any run from the initial configuration. -/
theorem run_ok_sound (h : List Nat → List Nat) (N t m : Nat) (d : List Nat)
    (sched : List Event) (hN : N ≤ 1024) :
    (run h N t m d sched (initConfig N)).shared.result = .ok →
      (run h N t m d sched (initConfig N)).shared.nonce ≤ m ∧
        (run h N t m d sched (initConfig N)).shared.nonce < U64 ∧
        derivedValue h (run h N t m d sched (initConfig N)).shared.nonce d ≤ t := by
  have hinit : CountersLt (initConfig N) ∧ OkSound h t m d (initConfig N) := by
    constructor
    · intro ws hws
      simp only [initConfig, List.mem_map, List.mem_range] at hws
      obtain ⟨k, hk, rfl⟩ := hws
      show k < U64
      unfold U64
      omega
    · intro hres
      simp [initConfig] at hres
  exact (run_invariant h N t m d _ (c1_inv_step h N t m d) sched
    (initConfig N) hinit).2

/-- The result codes other than `RESULT_OK` are nonzero. -/
theorem resultCode_eq_zero {r : PowResult} (hr : resultCode r = 0) :
    r = .ok := by
  cases r <;> simp [resultCode] at hr ⊢

/-- The only result carrying code `-3` is `RESULT_BAD_INPUT`. -/
theorem resultCode_eq_neg3 {r : PowResult} (hr : resultCode r = -3) :
    r = .badInput := by
  cases r <;> simp [resultCode] at hr ⊢

/-- C1: whenever `pow` reports success with some nonce, that nonce is
at most the effective `max_nonce` and the first 8 bytes of the double
SHA512 of the big-endian nonce followed by the input digest, read
big-endian, are at most the target. -/
theorem pow_success_sound (h : List Nat → List Nat)
    (N t maxN nonce0 : Nat) (d : List Nat) (sched : List Event)
    (hN1 : 1 ≤ N) (hN2 : N ≤ 1024) (_hd : d.length = 64) (hh : HashValid h)
    (hok : (pow h N t d maxN sched nonce0).1 = 0) :
    (pow h N t d maxN sched nonce0).2 ≤ effectiveMaxNonce maxN ∧
      fromBE8 ((h (h (beBytes8 ((pow h N t d maxN sched nonce0).2) ++
        d))).take 8) ≤ t := by
  have hvalid : ¬(N < 1 ∨ N > MAX_POOL_SIZE) := by
    simp only [MAX_POOL_SIZE]
    omega
  simp only [pow, if_neg hvalid] at hok ⊢
  have hres : (run h N t (effectiveMaxNonce maxN) d sched
      (initConfig N)).shared.result = .ok := resultCode_eq_zero hok
  obtain ⟨hle, hlt, hder⟩ :=
    run_ok_sound h N t (effectiveMaxNonce maxN) d sched hN2 hres
  rw [derivedValue_eq_be h _ d hh hlt] at hder
  rw [hres]
  simp only [if_pos rfl]
  exact ⟨hle, hder⟩

/-- C1 witness: a completed single-worker run that succeeds at nonce 0
under the all-zero hash. -/
theorem pow_success_sound_witness :
    (pow hZero 1 0 d0 1 [.work 0] 0).2 ≤ effectiveMaxNonce 1 ∧
      fromBE8 ((hZero (hZero (beBytes8 ((pow hZero 1 0 d0 1
        [.work 0] 0).2) ++ d0))).take 8) ≤ 0 :=
  pow_success_sound hZero 1 0 1 0 d0 [.work 0] (by decide) (by decide)
    (by decide) hashValid_hZero (by decide)

/-- C3: the candidate buffer for counter `i` is exactly 72 bytes,
bytes 0-7 being the big-endian serialization of `i` and bytes 8-71 a
verbatim copy of the digest; for fixed `i` the first 8 bytes do not
depend on the digest. -/
theorem encode_spec (i : Nat) (d : List Nat) (hi : i < U64)
    (hd : d.length = 64) :
    (encode i d).length = 72 ∧
      (encode i d).take 8 = beBytes8 i ∧
      (encode i d).drop 8 = d ∧
      (∀ d' : List Nat, d'.length = 64 →
        (encode i d').take 8 = (encode i d).take 8) := by
  have he := encode_eq_be i d hi
  refine ⟨?_, ?_, ?_, ?_⟩
  · rw [he]
    simp [beBytes8, hd]
  · rw [he]
    simp [beBytes8]
  · rw [he]
    simp [beBytes8]
  · intro d' _
    rw [he, encode_eq_be i d' hi]
    simp [beBytes8]

/-- C3 witness: the encoder at counter 7 on the all-zero digest, and
first-8-byte agreement against the all-one digest. -/
theorem encode_spec_witness :
    (encode 7 d0).length = 72 ∧ (encode 7 d0).take 8 = beBytes8 7 ∧
      (encode 7 d0).drop 8 = d0 ∧
      (encode 7 (List.replicate 64 1)).take 8 = (encode 7 d0).take 8 :=
  ⟨(encode_spec 7 d0 (by decide) (by decide)).1,
   (encode_spec 7 d0 (by decide) (by decide)).2.1,
   (encode_spec 7 d0 (by decide) (by decide)).2.2.1,
   (encode_spec 7 d0 (by decide) (by decide)).2.2.2
     (List.replicate 64 1) (by decide)⟩

/-- The shared cell after a step is either untouched or the target of
one `set_result` call carrying a terminal, non-bad-input result. -/
theorem step_shared_cases (h : List Nat → List Nat) (N t m : Nat)
    (d : List Nat) (cfg : Config) (e : Event) :
    (step h N t m d cfg e).shared = cfg.shared ∨
      ∃ res n, res ≠ PowResult.badInput ∧ res ≠ PowResult.notReady ∧
        (step h N t m d cfg e).shared = set_result cfg.shared res n := by
  cases e with
  | spawnFail =>
    exact Or.inr ⟨.error, 0, by decide, by decide, rfl⟩
  | work w =>
    cases hw : cfg.workers[w]? with
    | none => exact Or.inl (by simp only [step, hw])
    | some ws =>
      simp only [step, hw]
      split_ifs with hhalt hterm hover hhit
      · exact Or.inl rfl
      · exact Or.inl rfl
      · exact Or.inr ⟨.overflow, 0, by decide, by decide, rfl⟩
      · exact Or.inr ⟨.ok, ws.counter, by decide, by decide, rfl⟩
      · exact Or.inl rfl

/-- The result stored by `set_result` is the passed one or the old
one. -/
theorem set_result_result_mem (s : Shared) (res : PowResult) (n : Nat) :
    (set_result s res n).result = res ∨
      (set_result s res n).result = s.result := by
  unfold set_result
  split_ifs
  · exact Or.inl rfl
  · exact Or.inr rfl

/-- No run ever stores `RESULT_BAD_INPUT` in the shared cell. -/
theorem run_result_ne_badInput (h : List Nat → List Nat) (N t m : Nat)
    (d : List Nat) (sched : List Event) :
    (run h N t m d sched (initConfig N)).shared.result ≠ .badInput := by
  refine run_invariant h N t m d
    (fun cfg => cfg.shared.result ≠ PowResult.badInput) ?_ sched
    (initConfig N) (by simp [initConfig])
  intro cfg e hP
  rcases step_shared_cases h N t m d cfg e with heq | ⟨res, n, hres, _, heq⟩
  · rw [heq]
    exact hP
  · rw [heq]
    rcases set_result_result_mem cfg.shared res n with h1 | h1 <;> rw [h1]
    · exact hres
    · exact hP

/-- C4: the search entry point reports `RESULT_BAD_INPUT` exactly when
the pool size is 0 or exceeds 1024 or the digest is not 64 bytes, and
on such inputs the outcome is the bad-input code with the caller's
nonce untouched, independent of the hash function and of any
scheduling, i.e. before any worker or hashing. -/
theorem search_badInput_iff (h : List Nat → List Nat)
    (N t maxN nonce0 : Nat) (d : List Nat) (sched : List Event) :
    ((search h N t d maxN sched nonce0).1 = -3 ↔
      (N = 0 ∨ 1024 < N ∨ d.length ≠ 64)) ∧
      ((N = 0 ∨ 1024 < N ∨ d.length ≠ 64) →
        ∀ (h' : List Nat → List Nat) (sched' : List Event),
          search h N t d maxN sched nonce0 = (-3, nonce0) ∧
          search h' N t d maxN sched' nonce0 = (-3, nonce0)) := by
  have hcond : (N < 1 ∨ N > MAX_POOL_SIZE ∨ d.length ≠ HASH_SIZE) ↔
      (N = 0 ∨ 1024 < N ∨ d.length ≠ 64) := by
    unfold MAX_POOL_SIZE HASH_SIZE
    omega
  by_cases hbad : N = 0 ∨ 1024 < N ∨ d.length ≠ 64
  · have hif := hcond.mpr hbad
    constructor
    · rw [search, if_pos hif]
      simp [resultCode, hbad]
    · intro _ h' sched'
      rw [search, if_pos hif, search, if_pos hif]
      exact ⟨rfl, rfl⟩
  · have hif := fun hc => hbad (hcond.mp hc)
    constructor
    · rw [search, if_neg hif]
      simp only [iff_false_intro hbad, iff_false]
      intro habs
      have hpool : ¬(N < 1 ∨ N > MAX_POOL_SIZE) := by
        intro hc
        exact hif (Or.elim hc Or.inl (fun hx => Or.inr (Or.inl hx)))
      simp only [pow, if_neg hpool] at habs
      exact run_result_ne_badInput h N t (effectiveMaxNonce maxN) d sched
        (resultCode_eq_neg3 habs)
    · intro hc
      exact absurd hc hbad

/-- C4 witness: a zero pool size is rejected with the bad-input code. -/
theorem search_badInput_iff_witness :
    (search hZero 0 0 d0 1 [] 7).1 = -3 :=
  (search_badInput_iff hZero 0 0 1 7 d0 []).1.mpr (Or.inl rfl)

/-- C10: the caller's nonce cell keeps its prior value whenever `pow`
returns a nonzero status, and is assigned the stored winning nonce
exactly when the status is 0. -/
theorem pow_nonce_frame (h : List Nat → List Nat)
    (N t maxN nonce0 : Nat) (d : List Nat) (sched : List Event) :
    ((pow h N t d maxN sched nonce0).1 ≠ 0 →
      (pow h N t d maxN sched nonce0).2 = nonce0) ∧
      ((pow h N t d maxN sched nonce0).1 = 0 →
        (pow h N t d maxN sched nonce0).2 =
          (run h N t (effectiveMaxNonce maxN) d sched
            (initConfig N)).shared.nonce) := by
  rw [pow]
  split_ifs with hpool
  · exact ⟨fun _ => rfl, fun habs => absurd habs (by simp [resultCode])⟩
  · cases hr : (run h N t (effectiveMaxNonce maxN) d sched
        (initConfig N)).shared.result <;>
      simp [hr, resultCode]

/-- C10 witness: on a bad-input return the nonce cell still holds its
prior value 7. -/
theorem pow_nonce_frame_witness :
    (pow hZero 0 0 d0 1 [] 7).1 ≠ 0 ∧ (pow hZero 0 0 d0 1 [] 7).2 = 7 :=
  ⟨by decide, (pow_nonce_frame hZero 0 0 1 7 d0 []).1 (by decide)⟩

/-- C8 counterexample: the value substituted for a zero `max_nonce` is
`INT64_MAX`, which is neither the JavaScript safe-integer limit
`2^53 - 1` nor the full unsigned 64-bit range `2^64 - 1`. -/
theorem effectiveMaxNonce_zero_ne :
    effectiveMaxNonce 0 = 9223372036854775807 ∧
      effectiveMaxNonce 0 ≠ 9007199254740991 ∧
      effectiveMaxNonce 0 ≠ 18446744073709551615 := by
  refine ⟨rfl, ?_, ?_⟩ <;> decide

/-- C8 amended: a zero `max_nonce` argument makes `pow` search up to
`INT64_MAX = 2^63 - 1`; a nonzero argument is used as given; the node
binding never passes 0, always the explicit `MAX_SAFE_INTEGER =
2^53 - 1`. -/
theorem effectiveMaxNonce_spec :
    effectiveMaxNonce 0 = INT64_MAX ∧ INT64_MAX = 2 ^ 63 - 1 ∧
      (∀ m : Nat, m ≠ 0 → effectiveMaxNonce m = m) ∧
      MAX_SAFE_INTEGER = 2 ^ 53 - 1 ∧
      (∀ (h : List Nat → List Nat) (N t nonce0 : Nat) (d : List Nat)
        (sched : List Event),
        pow h N t d 0 sched nonce0 = pow h N t d INT64_MAX sched nonce0) := by
  have hsub : effectiveMaxNonce 0 = effectiveMaxNonce INT64_MAX := by
    unfold effectiveMaxNonce INT64_MAX
    norm_num
  refine ⟨rfl, by norm_num [INT64_MAX], fun m hm => ?_,
    by norm_num [MAX_SAFE_INTEGER], fun h N t nonce0 d sched => ?_⟩
  · unfold effectiveMaxNonce
    rw [if_neg hm]
  · unfold pow
    rw [hsub]

/-- C8 witness: a nonzero bound is used as given, and the zero bound
and the explicit `INT64_MAX` bound run identically. -/
theorem effectiveMaxNonce_spec_witness :
    effectiveMaxNonce 5 = 5 ∧
      pow hZero 1 0 d0 0 [] 3 = pow hZero 1 0 d0 INT64_MAX [] 3 :=
  ⟨effectiveMaxNonce_spec.2.2.1 5 (by decide),
   effectiveMaxNonce_spec.2.2.2.2 hZero 1 0 3 d0 []⟩

/-- Closed form of the worker counter sequence. -/
theorem candSeq_closed (k N : Nat) : ∀ j, candSeq k N j = (k + j * N) % U64 := by
  intro j
  induction j with
  | zero => simp [candSeq]
  | succ j ih =>
    rw [candSeq, ih, Nat.mod_add_mod]
    congr 1
    ring

/-- C6 amended: worker `k` advances its `uint64_t` counter by `N` per
unsuccessful attempt, so the counter is strictly increasing at every
step that does not wrap modulo `2^64`; the ideal candidate sets
`k + i*N` for the pool's offsets are pairwise disjoint and cover all
non-negative integers. -/
theorem candSeq_partition (k N : Nat) (hk : k < N) (hN1 : 1 ≤ N)
    (hN2 : N ≤ 1024) :
    (∀ j : Nat, k + (j + 1) * N < U64 →
      candSeq k N j < candSeq k N (j + 1)) ∧
      (∀ k' i i' : Nat, k' < N → k ≠ k' → k + i * N ≠ k' + i' * N) ∧
      (∀ n : Nat, ∃ k'' i : Nat, k'' < N ∧ n = k'' + i * N) := by
  refine ⟨fun j hj => ?_, fun k' i i' hk' hne heq => ?_, fun n => ?_⟩
  · have hexp : (j + 1) * N = j * N + N := by ring
    rw [hexp] at hj
    rw [candSeq_closed, candSeq_closed, Nat.mod_eq_of_lt (by omega),
      Nat.mod_eq_of_lt (by omega)]
    have hexp2 : (j + 1) * N = j * N + N := by ring
    rw [hexp2]
    omega
  · have hmod := congrArg (· % N) heq
    simp only [Nat.add_mul_mod_self_right] at hmod
    rw [Nat.mod_eq_of_lt hk, Nat.mod_eq_of_lt hk'] at hmod
    exact hne hmod
  · exact ⟨n % N, n / N, Nat.mod_lt n (by omega),
      (Nat.mod_add_div' n N).symm⟩

/-- C6 witness: with pool size 3, worker 1's first step increases the
counter, offsets 1 and 2 never collide, and 10 lies in some worker's
set. -/
theorem candSeq_partition_witness :
    candSeq 1 3 0 < candSeq 1 3 1 ∧ 1 + 2 * 3 ≠ 2 + 1 * 3 ∧
      (∃ k'' i : Nat, k'' < 3 ∧ 10 = k'' + i * 3) :=
  ⟨(candSeq_partition 1 3 (by decide) (by decide) (by decide)).1 0
      (by decide),
   (candSeq_partition 1 3 (by decide) (by decide) (by decide)).2.1 2 2 1
      (by decide) (by decide),
   (candSeq_partition 1 3 (by decide) (by decide) (by decide)).2.2 10⟩

/-- C6 counterexample: the `uint64_t` counter wraps, so with pool size
1 the counter value at attempt `2^64` revisits the value of attempt 0
and is below the value of attempt 1: the sequence is not strictly
increasing and does revisit values. -/
theorem candSeq_wraps :
    candSeq 0 1 U64 = candSeq 0 1 0 ∧ candSeq 0 1 U64 < candSeq 0 1 1 := by
  rw [candSeq_closed, candSeq_closed, candSeq_closed]
  norm_num [U64]

/-- Fuel bound for the isolated worker loop: from counter `i`, the
loop settles within `(max_nonce + N - i) / N + 1` iterations, provided
the counter arithmetic never wraps. -/
theorem workerRun_fuel (h : List Nat → List Nat) (N t m : Nat)
    (d : List Nat) (hN : 1 ≤ N) (hm : m + N < U64) :
    ∀ (fuel i : Nat), i < U64 → (m + N - i) / N + 1 ≤ fuel →
      (workerRun h N t m d fuel i).isSome = true := by
  intro fuel
  induction fuel with
  | zero => intro i _ hf; exact absurd hf (Nat.not_succ_le_zero _)
  | succ f ih =>
    intro i hi hf
    simp only [workerRun]
    split_ifs with hover hhit
    · rfl
    · rfl
    · have hile : i ≤ m := Nat.le_of_not_lt hover
      have hwrap : (i + N) % U64 = i + N := Nat.mod_eq_of_lt (by omega)
      rw [hwrap]
      refine ih (i + N) (by omega) ?_
      have hdiv : (m + N - i) / N = (m + N - i - N) / N + 1 :=
        Nat.div_eq_sub_div (by omega) (by omega)
      have hsub : m + N - i - N = m + N - (i + N) := by omega
      rw [hsub] at hdiv
      omega

/-- C7 amended: provided `max_nonce + pool_size < 2^64` (true in
particular for the defaulted bound `INT64_MAX`), a worker starting at
`k < pool_size` settles within `(max_nonce - k) / pool_size + 2` loop
iterations even with no interference from other workers. -/
theorem workerRun_terminates (h : List Nat → List Nat) (N t m : Nat)
    (d : List Nat) (k : Nat) (hN : 1 ≤ N) (hk : k < N)
    (hm : m + N < U64) :
    (workerRun h N t m d ((m - k) / N + 2) k).isSome = true := by
  refine workerRun_fuel h N t m d hN hm _ k (by omega) ?_
  by_cases hkm : k ≤ m
  · have hdiv : (m + N - k) / N = (m + N - k - N) / N + 1 :=
      Nat.div_eq_sub_div (by omega) (by omega)
    have hsub : m + N - k - N = m - k := by omega
    rw [hsub] at hdiv
    omega
  · have hdiv : (m + N - k) / N = 0 := Nat.div_eq_of_lt (by omega)
    have h0 : (m - k) / N = 0 := by
      rw [show m - k = 0 by omega]
      exact Nat.zero_div N
    omega

/-- C7 witness: a single worker with bound 3 returns within the
claimed `(3 - 0) / 1 + 2 = 5` iterations. -/
theorem workerRun_terminates_witness :
    (workerRun hFF 1 0 3 d0 ((3 - 0) / 1 + 2) 0).isSome = true :=
  workerRun_terminates hFF 1 0 3 d0 0 (by decide) (by decide)
    (by unfold U64; omega)

/-- With the always-miss hash and target 0, the worker loop never
settles below `max_nonce = 2^64 - 1`: the counter always passes the
overflow guard, every trial misses, and the increment wraps modulo
`2^64`. -/
theorem workerRun_hFF_none :
    ∀ (fuel i : Nat), i < U64 →
      workerRun hFF 1 0 (U64 - 1) d0 fuel i = none := by
  intro fuel
  induction fuel with
  | zero => intro i _; rfl
  | succ f ih =>
    intro i hi
    have hder : derivedValue hFF i d0 = 18446744073709551615 := by
      have h1 : derivedValue hFF i d0 =
          ntohll (fromLE8 ((List.replicate 64 255).take 8)) := by
        simp [derivedValue, hFF]
      rw [h1]
      decide
    simp only [workerRun]
    rw [if_neg (by omega), if_neg (by rw [hder]; omega)]
    exact ih _ (Nat.mod_lt _ (by unfold U64; omega))

/-- C7 counterexample: with `max_nonce = 2^64 - 1`, pool size 1 and a
hash on which every attempt misses target 0, the worker loop is still
running after the claimed maximum of
`(max_nonce - 0) / 1 + 2` iterations, so the claimed iteration bound
(and termination) fails. -/
theorem workerRun_unbounded :
    workerRun hFF 1 0 (U64 - 1) d0 ((U64 - 1 - 0) / 1 + 2) 0 = none :=
  workerRun_hFF_none _ 0 (by unfold U64; omega)

/-- One step with pool size 1 preserves the single-worker
exhaustiveness invariant. -/
theorem c5_inv_step (h : List Nat → List Nat) (t m : Nat) (d : List Nat)
    (hm : m + 1 < U64) :
    ∀ cfg e, C5Inv h t m d cfg → C5Inv h t m d (step h 1 t m d cfg e) := by
  intro cfg e ⟨ws, hws, hcnt, hnr, hov⟩
  cases e with
  | spawnFail =>
    simp only [step]
    refine ⟨ws, hws, hcnt, ?_, ?_⟩
    · intro hres
      rcases set_result_result_mem cfg.shared .error 0 with h1 | h1 <;>
        rw [h1] at hres
      · exact absurd hres (by decide)
      · exact hnr hres
    · intro hres
      rcases set_result_result_mem cfg.shared .error 0 with h1 | h1 <;>
        rw [h1] at hres
      · exact absurd hres (by decide)
      · exact hov hres
  | work w =>
    cases w with
    | zero =>
      have hw0 : cfg.workers[0]? = some ws := by
        rw [hws]
        simp
      simp only [step, hw0]
      split_ifs with hhalt hterm hover hhit
      · exact ⟨ws, hws, hcnt, hnr, hov⟩
      · refine ⟨{ ws with halted := true }, ?_, hcnt, hnr, hov⟩
        rw [hws]
        rfl
      · have hnready : cfg.shared.result = .notReady := not_not.mp hterm
        refine ⟨{ ws with halted := true }, by rw [hws]; rfl, hcnt, ?_, ?_⟩
        · intro hres
          rw [set_result_of_notReady _ _ hnready] at hres
          simp at hres
        · intro _ n hn
          exact hnr hnready n (by omega)
      · have hnready : cfg.shared.result = .notReady := not_not.mp hterm
        refine ⟨{ ws with halted := true }, by rw [hws]; rfl, hcnt, ?_, ?_⟩
        · intro hres
          rw [set_result_of_notReady _ _ hnready] at hres
          simp at hres
        · intro hres
          rw [set_result_of_notReady _ _ hnready] at hres
          simp at hres
      · have hle : ws.counter ≤ m := Nat.le_of_not_lt hover
        refine ⟨{ ws with counter := (ws.counter + 1) % U64 },
          by rw [hws]; rfl, ?_, ?_, hov⟩
        · show (ws.counter + 1) % U64 ≤ m + 1
          rw [Nat.mod_eq_of_lt (by omega)]
          omega
        · intro hres n hn
          show t < derivedValue h n d
          have hn' : n < ws.counter + 1 := by
            have := Nat.mod_eq_of_lt (show ws.counter + 1 < U64 by omega)
            simpa [this] using hn
          rcases Nat.lt_succ_iff_lt_or_eq.mp hn' with h1 | h1
          · exact hnr hres n h1
          · subst h1
            exact Nat.lt_of_not_le hhit
    | succ w' =>
      have hw : cfg.workers[w' + 1]? = none := by
        rw [hws]
        simp
      simp only [step, hw]
      exact ⟨ws, hws, hcnt, hnr, hov⟩

/-- A pool-size-1 run that ends in `RESULT_OVERFLOW` has tried and
rejected every candidate up to the bound. -/
theorem run_overflow_exhausts (h : List Nat → List Nat) (t m : Nat)
    (d : List Nat) (sched : List Event) (hm : m + 1 < U64)
    (hres : (run h 1 t m d sched (initConfig 1)).shared.result = .overflow) :
    ∀ n ≤ m, t < derivedValue h n d := by
  have hinit : C5Inv h t m d (initConfig 1) := by
    refine ⟨{ counter := 0, halted := false }, rfl, Nat.zero_le _, ?_, ?_⟩
    · intro _ n hn
      have h0 : n < 0 := hn
      exact absurd h0 (Nat.not_lt_zero n)
    · intro habs
      simp [initConfig] at habs
  have hfin := run_invariant h 1 t m d (C5Inv h t m d)
    (c5_inv_step h t m d hm) sched (initConfig 1) hinit
  obtain ⟨ws, _, _, _, hov⟩ := hfin
  exact hov hres

/-- The only result carrying code `-1` is `RESULT_OVERFLOW`. -/
theorem resultCode_eq_neg1 {r : PowResult} (hr : resultCode r = -1) :
    r = .overflow := by
  cases r <;> simp [resultCode] at hr ⊢

/-- C5 amended: with pool size 1 (a single worker, hence no overflow
race), an overflow return from `pow` does certify that every nonce up
to the effective bound was tried and missed the target; with a larger
pool an overflow return only certifies that the worker that set it ran
past the bound without success among its own candidates. -/
theorem pow_overflow_exhaustive_pool1 (h : List Nat → List Nat)
    (t maxN nonce0 : Nat) (d : List Nat) (sched : List Event)
    (hm : effectiveMaxNonce maxN + 1 < U64)
    (hov : (pow h 1 t d maxN sched nonce0).1 = -1) :
    ∀ n ≤ effectiveMaxNonce maxN, t < derivedValue h n d := by
  have hpool : ¬(1 < 1 ∨ 1 > MAX_POOL_SIZE) := by decide
  simp only [pow, if_neg hpool] at hov
  exact run_overflow_exhausts h t (effectiveMaxNonce maxN) d sched hm
    (resultCode_eq_neg1 hov)

/-- C5 amended witness: a single worker with bound 1, target 0 and the
always-miss hash overflows, and indeed candidate 0 misses. -/
theorem pow_overflow_exhaustive_pool1_witness :
    0 < derivedValue hFF 0 d0 :=
  pow_overflow_exhaustive_pool1 hFF 0 1 0 d0 [.work 0, .work 0, .work 0]
    (by decide) (by decide) 0 (by decide)

/-- C5 counterexample: with pool size 3 and `max_nonce = 1`, the
schedule that runs worker 2 first makes the search return overflow
with all workers joined, although nonce 0 is at most `max_nonce` and
its derived value meets the maximal target, i.e. a solution below the
bound exists but was never tried. -/
theorem search_overflow_despite_solution :
    (search hZero 3 (U64 - 1) d0 1 [.work 2, .work 0, .work 1] 0).1 = -1 ∧
      Completed (run hZero 3 (U64 - 1) (effectiveMaxNonce 1) d0
        [.work 2, .work 0, .work 1] (initConfig 3)) = true ∧
      0 ≤ effectiveMaxNonce 1 ∧ derivedValue hZero 0 d0 ≤ U64 - 1 := by
  refine ⟨?_, ?_, ?_, ?_⟩ <;> decide

/-- One spawn-failure-free step preserves the maximal-target
invariant. -/
theorem c9_inv_step (h : List Nat → List Nat) (d : List Nat) :
    ∀ cfg e, e ≠ Event.spawnFail → C9Inv cfg →
      C9Inv (step h 4 (U64 - 1) 1000 d cfg e) := by
  intro cfg e he ⟨hlen, hcnt, hnr, hterm⟩
  cases e with
  | spawnFail => exact absurd rfl he
  | work w =>
    cases hw : cfg.workers[w]? with
    | none => exact ⟨by simp only [step, hw, hlen], by simp only [step, hw]; exact hcnt,
        by simp only [step, hw]; exact hnr, by simp only [step, hw]; exact hterm⟩
    | some ws =>
      have hmem : ws ∈ cfg.workers := mem_of_lookup hw
      simp only [step, hw]
      split_ifs with hhalt hter hover hhit
      · exact ⟨hlen, hcnt, hnr, hterm⟩
      · refine ⟨by simp [List.length_set, hlen], fun ws' hws' => ?_,
          fun hres => absurd hres hter, hterm⟩
        rcases List.mem_or_eq_of_mem_set hws' with hin | rfl
        · exact hcnt ws' hin
        · exact hcnt ws hmem
      · exact absurd hover (by have := hcnt ws hmem; omega)
      · have hnready : cfg.shared.result = .notReady := not_not.mp hter
        rw [set_result_of_notReady _ _ hnready]
        refine ⟨by simp [List.length_set, hlen], fun ws' hws' => ?_,
          fun hres => ?_, fun _ => ⟨rfl, hcnt ws hmem⟩⟩
        · rcases List.mem_or_eq_of_mem_set hws' with hin | rfl
          · exact hcnt ws' hin
          · exact hcnt ws hmem
        · exact absurd hres (by simp)
      · refine absurd ?_ hhit
        have hlt := derivedValue_lt_U64 h ws.counter d
        unfold U64 at hlt ⊢
        omega

/-- A completed spawn-failure-free run of the maximal-target scenario
ends with a success whose nonce is one of the four first candidates. -/
theorem run_c9 (h : List Nat → List Nat) (d : List Nat)
    (sched : List Event) (hsched : ∀ e ∈ sched, e ≠ Event.spawnFail)
    (hcomp : Completed (run h 4 (U64 - 1) 1000 d sched (initConfig 4)) = true) :
    (run h 4 (U64 - 1) 1000 d sched (initConfig 4)).shared.result = .ok ∧
      (run h 4 (U64 - 1) 1000 d sched (initConfig 4)).shared.nonce < 4 := by
  have hinit : C9Inv (initConfig 4) := by
    refine ⟨by simp [initConfig], ?_, fun _ ws hws => ?_, fun habs => ?_⟩
    · intro ws hws
      simp only [initConfig, List.mem_map, List.mem_range] at hws
      obtain ⟨k, hk, rfl⟩ := hws
      exact hk
    · simp only [initConfig, List.mem_map, List.mem_range] at hws
      obtain ⟨k, _, rfl⟩ := hws
      rfl
    · exact absurd rfl habs
  have hfin := run_invariant_of_events h 4 (U64 - 1) 1000 d C9Inv
    (fun e => e ≠ Event.spawnFail) (c9_inv_step h d) sched (initConfig 4)
    hsched hinit
  obtain ⟨hlen, _, hnr, hterm⟩ := hfin
  by_cases hres : (run h 4 (U64 - 1) 1000 d sched
      (initConfig 4)).shared.result = .notReady
  · exfalso
    have hall := hnr hres
    cases hW : (run h 4 (U64 - 1) 1000 d sched (initConfig 4)).workers with
    | nil => rw [hW] at hlen; simp at hlen
    | cons a l =>
      have hmem : a ∈ (run h 4 (U64 - 1) 1000 d sched
          (initConfig 4)).workers := by
        rw [hW]
        exact List.mem_cons_self a l
      have h1 := hall a hmem
      have h2 := (List.all_eq_true.mp hcomp) a hmem
      simp only at h2
      rw [h1] at h2
      exact Bool.false_ne_true h2
  · exact hterm hres

/-- C9 amended: with pool size 4, the maximal target `2^64 - 1`, a
64-byte digest and `max_nonce = 1000`, every completed spawn-failure-free
run of `search` reports success, but the winning nonce is only
guaranteed to be one of the four workers' first candidates 0..3 — which
worker wins depends on the schedule, so the result is not
deterministically nonce 0; nonce 0 is delivered under the schedule
where worker 0 completes its first attempt first. -/
theorem search_maximal_target (h : List Nat → List Nat) (d : List Nat)
    (sched : List Event) (nonce0 : Nat) (hd : d.length = 64)
    (hsched : ∀ e ∈ sched, e ≠ Event.spawnFail)
    (hcomp : Completed (run h 4 (U64 - 1) 1000 d sched (initConfig 4)) = true) :
    (search h 4 (U64 - 1) d 1000 sched nonce0).1 = 0 ∧
      (search h 4 (U64 - 1) d 1000 sched nonce0).2 < 4 := by
  have hif : ¬(4 < 1 ∨ 4 > MAX_POOL_SIZE ∨ d.length ≠ HASH_SIZE) := by
    simp [MAX_POOL_SIZE, HASH_SIZE, hd]
  have hpool : ¬(4 < 1 ∨ 4 > MAX_POOL_SIZE) := by decide
  have heff : effectiveMaxNonce 1000 = 1000 := rfl
  rw [search, if_neg hif]
  simp only [pow, if_neg hpool, heff]
  obtain ⟨hok, hlt⟩ := run_c9 h d sched hsched hcomp
  rw [hok]
  simp only [if_pos rfl]
  exact ⟨rfl, hlt⟩

/-- C9 witness: the schedule where worker 0 acts first delivers
nonce 0. -/
theorem search_maximal_target_witness :
    (search hZero 4 (U64 - 1) d0 1000
      [.work 0, .work 1, .work 2, .work 3] 0).1 = 0 ∧
      (search hZero 4 (U64 - 1) d0 1000
        [.work 0, .work 1, .work 2, .work 3] 0).2 < 4 :=
  search_maximal_target hZero d0 [.work 0, .work 1, .work 2, .work 3] 0
    (by decide) (by decide) (by decide)

/-- C9 counterexample: under the schedule where worker 3 completes its
first attempt before the others run, the very same arguments return
success with nonce 3, not nonce 0, and the run is completed: the
outcome is schedule-dependent, not deterministically nonce 0. -/
theorem search_nonce_race :
    (search hZero 4 (U64 - 1) d0 1000
        [.work 3, .work 0, .work 1, .work 2] 0) = (0, 3) ∧
      (3 : Nat) ≠ 0 ∧
      Completed (run hZero 4 (U64 - 1) 1000 d0
        [.work 3, .work 0, .work 1, .work 2] (initConfig 4)) = true := by
  refine ⟨?_, ?_, ?_⟩ <;> decide

end BitmessagePow
